import Mathlib

/-!
Verification of the link-extraction core of the note-links-list plugin.

The embedding models the TypeScript source faithfully on `List Char`
(JavaScript strings are modelled as lists of characters; the character
classes of the regular expressions are modelled for the ASCII range, which
is the range the surrounding patterns accept).  Every definition in the
"source embedding" section is a direct translation of a function or regular
expression of the source file; the concrete regular expressions are
translated into deterministic matchers that reproduce the JavaScript
backtracking semantics of those particular patterns.
-/

/-! ### Character classes of the source regular expressions -/

/-- Class `\w` of the source regexes: `[A-Za-z0-9_]`. -/
def isWordChar (c : Char) : Bool :=
  c.isAlpha || c.isDigit || c = '_'

/-- Class `[\w-]` of the tag regex. -/
def isTagChar (c : Char) : Bool :=
  isWordChar c || c = '-'

/-- Class `[a-zA-Z0-9-]` of the domain labels. -/
def isDomChar (c : Char) : Bool :=
  c.isAlphanum || c = '-'

/-- Class `\s` (whitespace), modelled over the ASCII range. -/
def isJsSpace (c : Char) : Bool :=
  c = ' ' || c = '\t' || c = '\n' || c = '\r' || c = '\x0b' || c = '\x0c'

/-- Class `[^\s\]]` used for the URL tail and path. -/
def isUrlTail (c : Char) : Bool :=
  !(isJsSpace c) && !(c = ']')

/-! ### Generic string helpers (`split`, `indexOf`) -/

/-- JS `String.prototype.split` with a one-character separator. -/
def splitOnChar (sep : Char) : List Char → List (List Char)
  | [] => [[]]
  | c :: rest =>
    if c = sep then [] :: splitOnChar sep rest
    else
      match splitOnChar sep rest with
      | [] => [[c]]
      | g :: gs => (c :: g) :: gs

/-- Split a document into its lines, as `content.split('\n')` does. -/
def splitOnNl (l : List Char) : List (List Char) :=
  splitOnChar '\n' l

/-- Index of the first occurrence of `needle` in `hay`, if any. -/
def firstOccur (needle : List Char) : List Char → Option Nat
  | [] => if needle.isEmpty then some 0 else none
  | c :: rest =>
    if List.isPrefixOf needle (c :: rest) then some 0
    else (firstOccur needle rest).map (fun i => i + 1)

/-- JS `s.indexOf(sub)`: first-occurrence index, `-1` when absent. -/
def jsIndexOf (s sub : List Char) : Int :=
  match firstOccur sub s with
  | some i => (i : Int)
  | none => -1

/-- List enumeration with an explicit start index, mirroring `forEach`'s
`(element, index)` enumeration. -/
def enumFrom (n : Nat) : List α → List (Nat × α)
  | [] => []
  | x :: xs => (n, x) :: enumFrom (n + 1) xs

/-! ### A `regex.exec` loop: all non-overlapping matches, left to right

`findAllGo m l pos skip` scans the remaining text `l` (which starts at
absolute position `pos`), attempting the anchored matcher `m` (which
returns the consumed length) at every position, exactly as the JS regex
engine does for a `/g` regex driven to exhaustion by a `while (exec)`
loop.  On a match of length `len` the scan resumes at `pos + len`; this is
realized structurally by a `skip` counter counting the positions still
covered by the previous match (`lastIndex` bookkeeping).  All matchers
below consume at least one character, so the `max 1` guard (which models
that the loop cannot stall) is never exercised. -/
def findAllGo (m : List Char → Option Nat) : List Char → Nat → Nat → List (Nat × List Char)
  | [], pos, skip =>
    if skip = 0 then
      match m [] with
      | some _ => [(pos, [])]
      | none => []
    else []
  | c :: rest, pos, skip =>
    if skip = 0 then
      match m (c :: rest) with
      | none => findAllGo m rest (pos + 1) 0
      | some len =>
        (pos, (c :: rest).take len) :: findAllGo m rest (pos + 1) (max 1 len - 1)
    else findAllGo m rest (pos + 1) (skip - 1)

/-- All matches of the anchored matcher `m` in `l`, with their positions. -/
def findAll (m : List Char → Option Nat) (l : List Char) : List (Nat × List Char) :=
  findAllGo m l 0 0

/-! ### The matchers of the concrete source regexes -/

/-- Matcher for the tag regex `/#[\w-]+/` anchored at the current position:
a `#` followed by one or more word/hyphen characters (maximal munch). -/
def tagMatchLen : List Char → Option Nat
  | '#' :: rest =>
    let run := rest.takeWhile isTagChar
    if run.length = 0 then none else some (run.length + 1)
  | _ => none

/-- Matcher for the explicit-scheme alternative `https?:\/\/[^\s\]]+` of the
frontmatter URL regex: the literal scheme, then one or more tail characters
(maximal munch; `https?` resolves by first trying the `s`). -/
def schemeLen (l : List Char) : Option Nat :=
  if List.isPrefixOf ("https://".data) l then
    let tail := (l.drop 8).takeWhile isUrlTail
    if tail.length = 0 then none else some (8 + tail.length)
  else if List.isPrefixOf ("http://".data) l then
    let tail := (l.drop 7).takeWhile isUrlTail
    if tail.length = 0 then none else some (7 + tail.length)
  else none

/-- Matcher for `(?:\.[a-zA-Z0-9-]+)*\.[a-zA-Z]{2,}` after the leading label:
the greedy star takes as many `.label` segments as possible and backtracks
segment by segment until the final `\.[a-zA-Z]{2,}` (a dot followed by at
least two letters, maximal munch) succeeds; each starred iteration consumes
a maximal nonempty label, which is exactly what the backtracking engine does
because a shortened label would have to be followed by `.` but is in fact
followed by a label character. -/
def domTailFuel : Nat → List Char → Option Nat
  | 0, _ => none
  | fuel + 1, l =>
    match l with
    | '.' :: rest =>
      if (rest.takeWhile isDomChar).length = 0 then none
      else
        match domTailFuel fuel (rest.drop ((rest.takeWhile isDomChar).length)) with
        | some n => some (1 + (rest.takeWhile isDomChar).length + n)
        | none =>
          if 2 ≤ (rest.takeWhile Char.isAlpha).length then
            some (1 + (rest.takeWhile Char.isAlpha).length)
          else none
    | _ => none

/-- Entry point for the dotted tail: every recursion step of `domTailFuel`
consumes at least two characters (`.` plus a nonempty label), so a fuel of
`l.length + 1` can never run out. -/
def domTailLen (l : List Char) : Option Nat :=
  domTailFuel (l.length + 1) l

/-- Matcher for the optional path `(?:\/[^\s\]]*)?`: a `/` followed by a
maximal (possibly empty) run of tail characters, or nothing. -/
def pathLen : List Char → Nat
  | '/' :: rest => 1 + (rest.takeWhile isUrlTail).length
  | _ => 0

/-- Matcher for `[a-zA-Z0-9-]+(?:\.[a-zA-Z0-9-]+)*\.[a-zA-Z]{2,}` followed by
the optional path: the leading label is a maximal nonempty run (shortening it
would require a `.` where a label character stands, so it never usefully
backtracks), then the dotted tail, then the path. -/
def domainLen (l : List Char) : Option Nat :=
  let run0 := l.takeWhile isDomChar
  if run0.length = 0 then none
  else
    match domTailLen (l.drop run0.length) with
    | none => none
    | some n => some (run0.length + n + pathLen (l.drop (run0.length + n)))

/-- Matcher for `(?:www\.)?` followed by the domain-and-path form: the
optional `www.` is tried first (greedy) and given up if the remainder does
not parse as a domain. -/
def bareDomainLen (l : List Char) : Option Nat :=
  if List.isPrefixOf ("www.".data) l then
    match domainLen (l.drop 4) with
    | some n => some (4 + n)
    | none => domainLen l
  else domainLen l

/-- Anchored matcher for the body URL regex
`/(?:https?:\/\/)?(?:www\.)?([a-zA-Z0-9-]+(?:\.[a-zA-Z0-9-]+)*\.[a-zA-Z]{2,})(?:\/[^\s\]]*)?/`:
the optional scheme is tried first (greedy) and given up if no dotted domain
follows it. -/
def noteUrlLen (l : List Char) : Option Nat :=
  if List.isPrefixOf ("https://".data) l then
    match bareDomainLen (l.drop 8) with
    | some n => some (8 + n)
    | none => bareDomainLen l
  else if List.isPrefixOf ("http://".data) l then
    match bareDomainLen (l.drop 7) with
    | some n => some (7 + n)
    | none => bareDomainLen l
  else bareDomainLen l

/-- Anchored matcher for the frontmatter URL regex
`/(https?:\/\/[^\s\]]+)|(?:www\.)?([a-zA-Z0-9-]+(?:\.[a-zA-Z0-9-]+)*\.[a-zA-Z]{2,})(?:\/[^\s\]]*)?/`:
the explicit-scheme alternative is attempted first, then the bare-domain
alternative at the same position. -/
def fmUrlLen (l : List Char) : Option Nat :=
  match schemeLen l with
  | some n => some n
  | none => bareDomainLen l

/-- The line regex `/^(\w+):\s*(.*)/` of the frontmatter scanner: a leading
nonempty word-character key (maximal munch), a colon, then the value with
leading whitespace stripped (the greedy `\s*` before `(.*)`).  Returns
`(key, value)`. -/
def propertyMatch (line : List Char) : Option (List Char × List Char) :=
  let key := line.takeWhile isWordChar
  if key.length = 0 then none
  else
    match line.drop key.length with
    | ':' :: rest => some (key, rest.dropWhile isJsSpace)
    | _ => none

/-! ### URL standardization (`standardizeUrl` and `commonTLDs`) -/

/-- The fixed TLD allow-list `commonTLDs` of the source. -/
def commonTLDs : List (List Char) :=
  [("com".data), ("net".data), ("org".data), ("edu".data), ("gov".data), ("mil".data),
   ("io".data), ("ai".data), ("app".data), ("dev".data), ("cloud".data),
   ("co".data), ("me".data), ("info".data), ("biz".data), ("tech".data),
   ("blog".data), ("design".data), ("store".data), ("shop".data),
   ("uk".data), ("us".data), ("eu".data), ("ca".data), ("au".data), ("de".data), ("fr".data)]

/-- Source function `standardizeUrl`: accept a schemed URL as-is; otherwise take the
text before the first `/` as the host, lower-case its last dot-separated
segment and accept (prefixing `https://`) exactly when that segment is in
the allow-list.  Returns `(standardized, display)`. -/
def standardizeUrl (url : List Char) : Option (List Char × List Char) :=
  let display := url
  if List.isPrefixOf ("http://".data) url || List.isPrefixOf ("https://".data) url then
    some (url, display)
  else
    let domainParts := splitOnChar '.' ((splitOnChar '/' url).headD [])
    let tld := (domainParts.getLastD []).map Char.toLower
    if tld ∈ commonTLDs then some (("https://".data) ++ url, display)
    else none

/-! ### The link-record data model -/

/-- A line/column position (`{line, ch}` in the source; `ch` is an `Int`
because the source stores the result of `indexOf`, which can be `-1`). -/
structure TextPos where
  line : Nat
  ch : Int
deriving DecidableEq, Repr

/-- A `{from, to}` range (`from` is a Lean keyword, hence `fromPos`). -/
structure TextRange where
  fromPos : TextPos
  toPos : TextPos
deriving DecidableEq, Repr

/-- The `LinkInfo` record of the source. -/
structure LinkInfo where
  url : List Char
  displayUrl : List Char
  tags : List (List Char)
  position : TextRange
  isFromFrontmatter : Bool
  propertyKey : Option (List Char)
deriving DecidableEq, Repr

/-! ### Frontmatter recognition -/

/-- The group captured by matching the frontmatter regex (anchored line
`---`, then a lazy `[\s\S]*?` group, then newline and `---`) against the
document: the document must begin with the line `---`, and the lazy group
ends at the first later occurrence of newline-`---`. -/
def fmMatchGroup (content : List Char) : Option (List Char) :=
  if List.isPrefixOf ("---\n".data) content then
    (firstOccur ("\n---".data) (content.drop 4)).map (fun i => (content.drop 4).take i)
  else none

/-- The `contentStartLine` computation of `extractNoteLinks`: the number of lines consumed
by `content.match(/^---\n[\s\S]*?\n---\n/)` (its full match split on `\n`,
minus one), or `0` when that regex does not match. -/
def contentStartLine (content : List Char) : Nat :=
  if List.isPrefixOf ("---\n".data) content then
    match firstOccur ("\n---\n".data) (content.drop 4) with
    | some i =>
      (splitOnNl (("---\n".data) ++ ((content.drop 4).take i) ++ ("\n---\n".data))).length - 1
    | none => 0
  else 0

/-- The lines scanned by `extractNoteLinks`: `lines.slice(contentStartLine)`. -/
def noteContentLines (content : List Char) : List (List Char) :=
  (splitOnNl content).drop (contentStartLine content)

/-- The tag list of a body line: `(line.match(/#[\w-]+/g) || []).map(t => t.substring(1))`. -/
def lineTags (line : List Char) : List (List Char) :=
  (findAll tagMatchLen line).map (fun q => q.2.drop 1)

/-! ### The two extractors -/

/-- Source function `extractFrontmatterLinks`: if the frontmatter regex matches, scan each
captured line of shape `key: value`, run the URL regex over the value, and
for each match accepted by `standardizeUrl` emit a record; the stored column
is `line.indexOf(matchedUrl)` and the stored line is the frontmatter line
index plus one (to account for the opening `---`). -/
def extractFrontmatterLinks (content : List Char) : List LinkInfo :=
  match fmMatchGroup content with
  | none => []
  | some frontmatter =>
    (enumFrom 0 (splitOnNl frontmatter)).flatMap (fun p =>
      match propertyMatch p.2 with
      | none => []
      | some kv =>
        (findAll fmUrlLen kv.2).filterMap (fun m =>
          (standardizeUrl m.2).map (fun u =>
            { url := u.1
              displayUrl := u.2
              tags := []
              position :=
                { fromPos := { line := p.1 + 1, ch := jsIndexOf p.2 m.2 }
                  toPos := { line := p.1 + 1, ch := jsIndexOf p.2 m.2 + m.2.length } }
              isFromFrontmatter := true
              propertyKey := some kv.1 })))

/-- Source function `extractNoteLinks`: scan every line from `contentStartLine` on with the
body URL regex; each match accepted by `standardizeUrl` yields a record
whose tags are all hashtag tokens of the same line and whose column is the
match index within the line. -/
def extractNoteLinks (content : List Char) : List LinkInfo :=
  (enumFrom 0 (noteContentLines content)).flatMap (fun p =>
    (findAll noteUrlLen p.2).filterMap (fun m =>
      (standardizeUrl m.2).map (fun u =>
        { url := u.1
          displayUrl := u.2
          tags := lineTags p.2
          position :=
            { fromPos := { line := p.1 + contentStartLine content, ch := (m.1 : Int) }
              toPos := { line := p.1 + contentStartLine content,
                         ch := (m.1 : Int) + m.2.length } }
          isFromFrontmatter := false
          propertyKey := none })))

/-- Both extraction passes on one document snapshot. -/
def extractAll (content : List Char) : List LinkInfo × List LinkInfo :=
  (extractFrontmatterLinks content, extractNoteLinks content)

/-! ### The duplicate filter -/

/-- One walk of `filterLinks`'s loop: keep a record exactly when its
lower-cased URL is not yet in `seen`, then add it.  Returns the final seen
set together with the kept records. -/
def filterPass (seen : List (List Char)) : List LinkInfo → List (List Char) × List LinkInfo
  | [] => (seen, [])
  | link :: rest =>
    let standardizedUrl := link.url.map Char.toLower
    if standardizedUrl ∈ seen then filterPass seen rest
    else
      ((filterPass (standardizedUrl :: seen) rest).1,
       link :: (filterPass (standardizedUrl :: seen) rest).2)

/-- Source function `filterLinks`: identity when the duplicate filter is off; otherwise walk
the frontmatter records and then the note records with one shared seen set. -/
def filterLinks (filterDuplicates : Bool) (frontmatterLinks noteLinks : List LinkInfo) :
    List LinkInfo × List LinkInfo :=
  if !filterDuplicates then (frontmatterLinks, noteLinks)
  else
    ((filterPass [] frontmatterLinks).2,
     (filterPass (filterPass [] frontmatterLinks).1 noteLinks).2)

/-! ### Specification-side definitions

These definitions follow the wording of the specification (not the code);
they are used to state the claims and to compare the code against them. -/

/-- The lower-cased canonical URL of a record, the deduplication key. -/
def lowUrl (r : LinkInfo) : List Char :=
  r.url.map Char.toLower

/-- Modelled from the spec: walk the records in order, keeping a record
exactly when its lower-cased canonical URL is not yet in the seen set, then
adding it. -/
def dedupeKeep (seen : List (List Char)) : List LinkInfo → List LinkInfo
  | [] => []
  | r :: rs =>
    if lowUrl r ∈ seen then dedupeKeep seen rs
    else r :: dedupeKeep (lowUrl r :: seen) rs

/-- Modelled from the spec: the host of a candidate, the text before the
first `/`. -/
def specHost (url : List Char) : List Char :=
  (splitOnChar '/' url).headD []

/-- Modelled from the spec: the lower-cased last dot-separated segment of
the host. -/
def specTld (url : List Char) : List Char :=
  ((splitOnChar '.' (specHost url)).getLastD []).map Char.toLower

/-- Modelled from the spec: the raw match start index of every accepted
frontmatter URL candidate within its source line (the offset of the value
within the line — the value is a suffix of the line — plus the match index
within the value), in emission order. -/
def fmRawStarts (content : List Char) : List Int :=
  match fmMatchGroup content with
  | none => []
  | some frontmatter =>
    (enumFrom 0 (splitOnNl frontmatter)).flatMap (fun p =>
      match propertyMatch p.2 with
      | none => []
      | some kv =>
        (findAll fmUrlLen kv.2).filterMap (fun m =>
          (standardizeUrl m.2).map (fun _ => ((p.2.length - kv.2.length + m.1 : Nat) : Int))))

/-- Modelled from the spec: the raw match start index of every accepted body
URL candidate within its source line, in emission order. -/
def noteRawStarts (content : List Char) : List Int :=
  (enumFrom 0 (noteContentLines content)).flatMap (fun p =>
    (findAll noteUrlLen p.2).filterMap (fun m =>
      (standardizeUrl m.2).map (fun _ => ((m.1 : Nat) : Int))))

/-- Claim C2 as stated: the substring of the original document covered by
each record's span equals its display text, and every record's start column
is the raw match start index within its source line. -/
def claimC2Holds (content : List Char) : Prop :=
  (∀ rec ∈ extractFrontmatterLinks content ++ extractNoteLinks content,
    (((splitOnNl content).getD rec.position.fromPos.line []).drop
        rec.position.fromPos.ch.toNat).take rec.displayUrl.length = rec.displayUrl)
  ∧ (extractFrontmatterLinks content).map (fun r => r.position.fromPos.ch) = fmRawStarts content
  ∧ (extractNoteLinks content).map (fun r => r.position.fromPos.ch) = noteRawStarts content

/-- Modelled from the spec: the document begins with a line that is exactly
the delimiter `---`, and some later line is exactly `---`. -/
def specHeaderShape (content : List Char) : Prop :=
  (splitOnNl content).headD [] = ("---".data) ∧ ("---".data) ∈ (splitOnNl content).tail

/-- Claim C4 as stated: a header is recognized iff the document has the
exact delimiter-line shape, and otherwise the header record list is empty
and the whole document is scanned as body at line offset 0. -/
def claimC4Holds (content : List Char) : Prop :=
  ((fmMatchGroup content).isSome ↔ specHeaderShape content)
  ∧ (¬ specHeaderShape content →
      extractFrontmatterLinks content = [] ∧ contentStartLine content = 0)

/-- Whether a line contains an occurrence of `http://` or `https://`
followed by at least one non-whitespace, non-`]` character. -/
def hasSchemedSub (l : List Char) : Bool :=
  (List.range (l.length + 1)).any (fun p =>
    (List.isPrefixOf ("http://".data) (l.drop p)
      && !(((l.drop p).drop 7).takeWhile isUrlTail).isEmpty)
    || (List.isPrefixOf ("https://".data) (l.drop p)
      && !(((l.drop p).drop 8).takeWhile isUrlTail).isEmpty))

/-- Claim C5 as stated (consequence part): every body line containing a
schemed substring yields at least one record for that line. -/
def claimC5Holds (content : List Char) : Prop :=
  ∀ p ∈ enumFrom 0 (noteContentLines content), hasSchemedSub p.2 = true →
    ∃ rec ∈ extractNoteLinks content,
      rec.position.fromPos.line = p.1 + contentStartLine content

/-- Claim C6 as stated: the tag list is empty iff the record comes from the
frontmatter. -/
def claimC6Holds (content : List Char) : Prop :=
  ∀ rec ∈ extractFrontmatterLinks content ++ extractNoteLinks content,
    (rec.tags = [] ↔ rec.isFromFrontmatter = true)

/-- The number of raw frontmatter URL candidates (matches of the URL regex
over the values of well-formed `key: value` lines). -/
def fmCandidateCount (content : List Char) : Nat :=
  match fmMatchGroup content with
  | none => 0
  | some frontmatter =>
    ((enumFrom 0 (splitOnNl frontmatter)).map (fun p =>
      match propertyMatch p.2 with
      | none => 0
      | some kv => (findAll fmUrlLen kv.2).length)).sum

/-- The number of raw body URL candidates (matches of the body URL regex
over the scanned lines). -/
def noteCandidateCount (content : List Char) : Nat :=
  ((enumFrom 0 (noteContentLines content)).map (fun p =>
    (findAll noteUrlLen p.2).length)).sum

/-! ### Helper lemmas: strings and scanning -/

lemma splitOnChar_ne_nil (sep : Char) (l : List Char) : splitOnChar sep l ≠ [] := by
  induction l with
  | nil => simp [splitOnChar]
  | cons c rest ih =>
    simp only [splitOnChar]
    split
    · simp
    · cases h : splitOnChar sep rest with
      | nil => simp
      | cons g gs => simp

lemma splitOnChar_append (sep : Char) (a b : List Char) :
    splitOnChar sep (a ++ sep :: b) = splitOnChar sep a ++ splitOnChar sep b := by
  induction a with
  | nil => simp [splitOnChar]
  | cons c rest ih =>
    by_cases hc : c = sep
    · simp [splitOnChar, hc, ih]
    · simp only [List.cons_append, splitOnChar, if_neg hc, List.append_eq]
      rw [ih]
      cases h : splitOnChar sep rest with
      | nil => exact absurd h (splitOnChar_ne_nil sep rest)
      | cons g gs => simp [h]

lemma isPrefixOf_decomp {a b : List Char} (h : List.isPrefixOf a b = true) :
    ∃ c, b = a ++ c := by
  induction a generalizing b with
  | nil => exact ⟨b, rfl⟩
  | cons x xs ih =>
    cases b with
    | nil => simp [List.isPrefixOf] at h
    | cons y ys =>
      simp only [List.isPrefixOf, Bool.and_eq_true, beq_iff_eq] at h
      obtain ⟨rfl, h2⟩ := h
      obtain ⟨c, rfl⟩ := ih h2
      exact ⟨c, rfl⟩

lemma isPrefixOf_append (a c : List Char) : List.isPrefixOf a (a ++ c) = true := by
  induction a with
  | nil => simp [List.isPrefixOf]
  | cons x xs ih => simp [List.isPrefixOf, ih]

lemma take_of_isPrefixOf {a b : List Char} (h : List.isPrefixOf a b = true) :
    b.take a.length = a := by
  obtain ⟨c, rfl⟩ := isPrefixOf_decomp h
  simp

lemma take_length_takeWhile (p : Char → Bool) (l : List Char) :
    l.take ((l.takeWhile p).length) = l.takeWhile p := by
  induction l with
  | nil => simp
  | cons c rest ih =>
    by_cases hc : p c
    · simp [List.takeWhile, hc, ih]
    · simp [List.takeWhile, hc]

lemma take_take_self (l : List Char) (n : Nat) :
    l.take ((l.take n).length) = l.take n := by
  induction l generalizing n with
  | nil => simp
  | cons c rest ih =>
    cases n with
    | zero => simp
    | succ k => simp [List.take, ih]

lemma firstOccur_sound {needle hay : List Char} {i : Nat}
    (h : firstOccur needle hay = some i) :
    List.isPrefixOf needle (hay.drop i) = true := by
  induction hay generalizing i with
  | nil =>
    simp only [firstOccur] at h
    split at h
    · rename_i he
      simp only [Option.some.injEq] at h
      subst h
      have hne : needle = [] := by simpa [List.isEmpty_iff] using he
      subst hne
      simp [List.isPrefixOf]
    · simp at h
  | cons c rest ih =>
    simp only [firstOccur] at h
    split at h
    · rename_i hp
      simp only [Option.some.injEq] at h
      subst h
      simpa using hp
    · cases hfo : firstOccur needle rest with
      | none => rw [hfo] at h; simp at h
      | some j =>
        rw [hfo] at h
        simp only [Option.map_some', Option.some.injEq] at h
        subst h
        simpa using ih hfo

lemma firstOccur_complete (needle : List Char) :
    ∀ (a b : List Char), (firstOccur needle (a ++ needle ++ b)).isSome := by
  intro a
  induction a with
  | nil =>
    intro b
    cases needle with
    | nil =>
      cases b with
      | nil => simp [firstOccur]
      | cons y ys => simp [firstOccur, List.isPrefixOf]
    | cons n ns =>
      have hp := isPrefixOf_append (n :: ns) b
      simp only [List.cons_append] at hp
      simp [firstOccur, hp]
  | cons c a' ih =>
    intro b
    simp only [List.cons_append, firstOccur]
    split
    · simp
    · have := ih b
      cases hfo : firstOccur needle (a' ++ needle ++ b) with
      | none => rw [hfo] at this; simp at this
      | some j => simp

lemma mem_enumFrom {α : Type _} {l : List α} {n i : Nat} {x : α}
    (h : (i, x) ∈ enumFrom n l) : n ≤ i ∧ l[i - n]? = some x := by
  induction l generalizing n with
  | nil => simp [enumFrom] at h
  | cons y ys ih =>
    simp only [enumFrom, List.mem_cons, Prod.mk.injEq] at h
    rcases h with ⟨rfl, rfl⟩ | h
    · simp
    · obtain ⟨h1, h2⟩ := ih h
      refine ⟨by omega, ?_⟩
      have : i - n = (i - (n + 1)) + 1 := by omega
      rw [this]
      simpa using h2

lemma mem_findAllGo {m : List Char → Option Nat} {l : List Char} {pos skip p : Nat}
    {s : List Char} (h : (p, s) ∈ findAllGo m l pos skip) :
    ∃ k len, p = pos + k ∧ m (l.drop k) = some len ∧ s = (l.drop k).take len := by
  induction l generalizing pos skip with
  | nil =>
    simp only [findAllGo] at h
    split at h
    · cases hm : m [] with
      | none => rw [hm] at h; simp at h
      | some len =>
        rw [hm] at h
        simp only [List.mem_singleton, Prod.mk.injEq] at h
        obtain ⟨rfl, rfl⟩ := h
        exact ⟨0, len, by omega, hm, by simp⟩
    · simp at h
  | cons c rest ih =>
    simp only [findAllGo] at h
    split at h
    · cases hm : m (c :: rest) with
      | none =>
        rw [hm] at h
        obtain ⟨k, len, rfl, h2, h3⟩ := ih h
        exact ⟨k + 1, len, by omega, by simpa using h2, by simpa using h3⟩
      | some len =>
        rw [hm] at h
        rcases List.mem_cons.mp h with heq | h
        · obtain ⟨rfl, rfl⟩ := Prod.mk.injEq .. ▸ heq
          exact ⟨0, len, by omega, by simpa using hm, by simp⟩
        · obtain ⟨k, len', rfl, h2, h3⟩ := ih h
          exact ⟨k + 1, len', by omega, by simpa using h2, by simpa using h3⟩
    · obtain ⟨k, len, rfl, h2, h3⟩ := ih h
      exact ⟨k + 1, len, by omega, by simpa using h2, by simpa using h3⟩

lemma mem_findAll {m : List Char → Option Nat} {l : List Char} {p : Nat} {s : List Char}
    (h : (p, s) ∈ findAll m l) :
    ∃ len, m (l.drop p) = some len ∧ s = (l.drop p).take len := by
  obtain ⟨k, len, hk, h2, h3⟩ := mem_findAllGo h
  subst hk
  simp only [Nat.zero_add]
  exact ⟨len, h2, h3⟩

/-! ### Helper lemmas: standardization and line structure -/

lemma standardizeUrl_display {u : List Char} {v : List Char × List Char}
    (h : standardizeUrl u = some v) : v.2 = u := by
  simp only [standardizeUrl] at h
  split at h
  · simp only [Option.some.injEq] at h
    rw [← h]
  · split at h
    · simp only [Option.some.injEq] at h
      rw [← h]
    · simp at h

lemma standardizeUrl_scheme {u : List Char}
    (h : List.isPrefixOf ("http://".data) u = true ∨ List.isPrefixOf ("https://".data) u = true) :
    standardizeUrl u = some (u, u) := by
  unfold standardizeUrl
  rcases h with h | h <;> simp [h]

lemma propertyMatch_decomp {line k v : List Char}
    (h : propertyMatch line = some (k, v)) : ∃ pre, line = pre ++ v := by
  simp only [propertyMatch] at h
  split at h
  · simp at h
  · split at h
    · rename_i rest heq
      simp only [Option.some.injEq, Prod.mk.injEq] at h
      obtain ⟨hk, hv⟩ := h
      refine ⟨(List.takeWhile isWordChar line) ++ ':' :: rest.takeWhile isJsSpace, ?_⟩
      have h1 : line = List.takeWhile isWordChar line
          ++ List.drop ((List.takeWhile isWordChar line).length) line := by
        conv_lhs => rw [← List.take_append_drop ((List.takeWhile isWordChar line).length) line]
        rw [take_length_takeWhile]
      have h2 : rest = rest.takeWhile isJsSpace ++ rest.dropWhile isJsSpace :=
        (List.takeWhile_append_dropWhile (p := isJsSpace) (l := rest)).symm
      conv_lhs => rw [h1, heq]
      rw [← hv]
      conv_lhs => rw [h2]
      simp [List.append_assoc]
    · simp at h

lemma fmMatchGroup_decomp {t fm : List Char} (h : fmMatchGroup t = some fm) :
    ∃ post, t = ("---\n".data) ++ fm ++ ("\n---".data) ++ post := by
  unfold fmMatchGroup at h
  split at h
  · rename_i hpre
    cases hfo : firstOccur ("\n---".data) (t.drop 4) with
    | none => rw [hfo] at h; simp at h
    | some i =>
      rw [hfo] at h
      simp only [Option.map_some', Option.some.injEq] at h
      subst h
      obtain ⟨c, hc⟩ := isPrefixOf_decomp (firstOccur_sound hfo)
      obtain ⟨r, hr⟩ := isPrefixOf_decomp hpre
      refine ⟨c, ?_⟩
      have hlen : ("---\n".data).length = 4 := by decide
      have hrd : List.drop 4 t = r := by rw [hr, ← hlen, List.drop_left]
      have hdi : List.drop i r = ("\n---".data) ++ c := by rw [← hrd]; exact hc
      have hrr : r = r.take i ++ (("\n---".data) ++ c) := by
        conv_lhs => rw [← List.take_append_drop i r, hdi]
      rw [hrd, hr]
      conv_lhs => rw [hrr]
      simp [List.append_assoc]
  · simp at h

lemma fmMatchGroup_some_of_decomp (g post : List Char) :
    (fmMatchGroup (("---\n".data) ++ g ++ ("\n---".data) ++ post)).isSome := by
  unfold fmMatchGroup
  have hpre : List.isPrefixOf ("---\n".data)
      (("---\n".data) ++ g ++ ("\n---".data) ++ post) = true := by
    have := isPrefixOf_append ("---\n".data) (g ++ ("\n---".data) ++ post)
    simp only [List.append_assoc] at this ⊢
    exact this
  rw [if_pos hpre]
  have hlen : ("---\n".data).length = 4 := by decide
  have hdrop : (("---\n".data) ++ g ++ ("\n---".data) ++ post).drop 4
      = g ++ ("\n---".data) ++ post := by
    rw [← hlen, List.append_assoc, List.append_assoc, List.drop_left]
    rw [← List.append_assoc]
  rw [hdrop]
  have := firstOccur_complete ("\n---".data) g post
  cases hfo : firstOccur ("\n---".data) (g ++ ("\n---".data) ++ post) with
  | none => rw [hfo] at this; simp at this
  | some i => simp

lemma contentStartLine_eq_zero {t : List Char} (h : fmMatchGroup t = none) :
    contentStartLine t = 0 := by
  unfold fmMatchGroup at h
  unfold contentStartLine
  split
  · rename_i hpre
    rw [if_pos hpre] at h
    cases hfo5 : firstOccur ("\n---\n".data) (t.drop 4) with
    | none => simp
    | some i =>
      exfalso
      obtain ⟨c, hc⟩ := isPrefixOf_decomp (firstOccur_sound hfo5)
      have hx : t.drop 4
          = (t.drop 4).take i ++ (("\n---".data) ++ ('\n' :: c)) := by
        conv_lhs => rw [← List.take_append_drop i (t.drop 4), hc]
        congr 1
      have hsome := firstOccur_complete ("\n---".data) ((t.drop 4).take i) ('\n' :: c)
      rw [List.append_assoc, ← hx] at hsome
      cases hfo : firstOccur ("\n---".data) (t.drop 4) with
      | none => rw [hfo] at hsome; simp at hsome
      | some j => rw [hfo] at h; simp at h
  · simp

lemma splitOnNl_fmDoc (fm post : List Char) :
    splitOnNl (("---\n".data) ++ fm ++ ("\n---".data) ++ post)
      = ("---".data) :: (splitOnNl fm ++ splitOnNl (("---".data) ++ post)) := by
  have h1 : ("---\n".data) ++ fm ++ ("\n---".data) ++ post
      = ("---".data) ++ '\n' :: (fm ++ '\n' :: (("---".data) ++ post)) := by
    simp [show ("---\n".data) = ("---".data) ++ ['\n'] from rfl,
      show ("\n---".data) = '\n' :: ("---".data) from rfl, List.append_assoc]
  rw [h1]
  unfold splitOnNl
  rw [splitOnChar_append, splitOnChar_append]
  rfl

lemma fmDoc_line {t fm line : List Char} {idx : Nat} (hfm : fmMatchGroup t = some fm)
    (hl : (splitOnNl fm)[idx]? = some line) :
    (splitOnNl t)[idx + 1]? = some line := by
  obtain ⟨post, ht⟩ := fmMatchGroup_decomp hfm
  rw [ht, splitOnNl_fmDoc]
  have hlt : idx < (splitOnNl fm).length := by
    by_contra hge
    rw [List.getElem?_eq_none (by omega)] at hl
    simp at hl
  simp only [List.getElem?_cons_succ]
  rw [List.getElem?_append, if_pos hlt]
  exact hl

lemma noteContentLines_get {t line : List Char} {idx : Nat}
    (h : (idx, line) ∈ enumFrom 0 (noteContentLines t)) :
    (splitOnNl t)[idx + contentStartLine t]? = some line := by
  obtain ⟨-, h2⟩ := mem_enumFrom h
  simp only [Nat.sub_zero] at h2
  rw [noteContentLines, List.getElem?_drop] at h2
  rw [Nat.add_comm]
  exact h2

/-! ### Helper lemmas: shape of the extracted records -/

lemma mem_extractNoteLinks {t : List Char} {rec : LinkInfo}
    (h : rec ∈ extractNoteLinks t) :
    ∃ idx line pos matched u,
      (idx, line) ∈ enumFrom 0 (noteContentLines t)
      ∧ (pos, matched) ∈ findAll noteUrlLen line
      ∧ standardizeUrl matched = some u
      ∧ rec = { url := u.1
                displayUrl := matched
                tags := lineTags line
                position :=
                  { fromPos := { line := idx + contentStartLine t, ch := (pos : Int) }
                    toPos := { line := idx + contentStartLine t
                               ch := (pos : Int) + matched.length } }
                isFromFrontmatter := false
                propertyKey := none } := by
  unfold extractNoteLinks at h
  simp only [List.mem_flatMap, List.mem_filterMap, Option.map_eq_some'] at h
  obtain ⟨p, hp, m, hm, u, hu, hrec⟩ := h
  refine ⟨p.1, p.2, m.1, m.2, u, by simpa using hp, by simpa using hm, hu, ?_⟩
  rw [← hrec, standardizeUrl_display hu]

lemma mem_extractFrontmatterLinks {t : List Char} {rec : LinkInfo}
    (h : rec ∈ extractFrontmatterLinks t) :
    ∃ fm idx line kv pos matched u,
      fmMatchGroup t = some fm
      ∧ (idx, line) ∈ enumFrom 0 (splitOnNl fm)
      ∧ propertyMatch line = some kv
      ∧ (pos, matched) ∈ findAll fmUrlLen kv.2
      ∧ standardizeUrl matched = some u
      ∧ rec = { url := u.1
                displayUrl := matched
                tags := []
                position :=
                  { fromPos := { line := idx + 1, ch := jsIndexOf line matched }
                    toPos := { line := idx + 1
                               ch := jsIndexOf line matched + matched.length } }
                isFromFrontmatter := true
                propertyKey := some kv.1 } := by
  unfold extractFrontmatterLinks at h
  cases hfm : fmMatchGroup t with
  | none => rw [hfm] at h; simp at h
  | some fm =>
    rw [hfm] at h
    simp only [List.mem_flatMap] at h
    obtain ⟨p, hp, hmem⟩ := h
    cases hpm : propertyMatch p.2 with
    | none => rw [hpm] at hmem; simp at hmem
    | some kv =>
      rw [hpm] at hmem
      simp only [List.mem_filterMap, Option.map_eq_some'] at hmem
      obtain ⟨m, hm, u, hu, hrec⟩ := hmem
      refine ⟨fm, p.1, p.2, kv, m.1, m.2, u, rfl, by simpa using hp, hpm,
        by simpa using hm, hu, ?_⟩
      rw [← hrec, standardizeUrl_display hu]

/-! ### Helper lemmas: the duplicate filter -/

lemma filterPass_snd (seen : List (List Char)) (l : List LinkInfo) :
    (filterPass seen l).2 = dedupeKeep seen l := by
  induction l generalizing seen with
  | nil => rfl
  | cons r rs ih =>
    simp only [filterPass, dedupeKeep, lowUrl]
    split
    · exact ih seen
    · simp [ih]

lemma mem_filterPass_fst (seen : List (List Char)) (l : List LinkInfo) (x : List Char) :
    x ∈ (filterPass seen l).1 ↔ x ∈ seen ∨ x ∈ l.map lowUrl := by
  induction l generalizing seen with
  | nil => simp [filterPass]
  | cons r rs ih =>
    simp only [filterPass, lowUrl]
    split
    · rename_i hmem
      rw [ih]
      simp only [List.map_cons, List.mem_cons, lowUrl]
      constructor
      · rintro (h | h)
        · exact Or.inl h
        · exact Or.inr (Or.inr h)
      · rintro (h | h | h)
        · exact Or.inl h
        · rw [h]; exact Or.inl hmem
        · exact Or.inr h
    · rw [ih]
      simp only [List.mem_cons, List.map_cons, lowUrl]
      tauto

lemma dedupeKeep_congr {s₁ s₂ : List (List Char)} (h : ∀ x, x ∈ s₁ ↔ x ∈ s₂) :
    ∀ l, dedupeKeep s₁ l = dedupeKeep s₂ l := by
  intro l
  induction l generalizing s₁ s₂ with
  | nil => rfl
  | cons r rs ih =>
    simp only [dedupeKeep]
    by_cases hm : lowUrl r ∈ s₁
    · rw [if_pos hm, if_pos ((h _).mp hm)]
      exact ih h
    · rw [if_neg hm, if_neg (fun hc => hm ((h _).mpr hc))]
      have : ∀ x, x ∈ lowUrl r :: s₁ ↔ x ∈ lowUrl r :: s₂ := by
        intro x
        simp only [List.mem_cons]
        rw [h x]
      rw [ih this]

lemma dedupeKeep_sublist (seen : List (List Char)) (l : List LinkInfo) :
    (dedupeKeep seen l).Sublist l := by
  induction l generalizing seen with
  | nil => simp [dedupeKeep]
  | cons r rs ih =>
    simp only [dedupeKeep]
    split
    · exact (ih seen).cons r
    · exact (ih (lowUrl r :: seen)).cons₂ r

lemma not_mem_seen_of_mem_dedupeKeep {r : LinkInfo} {seen : List (List Char)}
    {l : List LinkInfo} (h : r ∈ dedupeKeep seen l) : lowUrl r ∉ seen := by
  induction l generalizing seen with
  | nil => simp [dedupeKeep] at h
  | cons a rs ih =>
    simp only [dedupeKeep] at h
    split at h
    · exact ih h
    · rename_i hna
      rcases List.mem_cons.mp h with rfl | h2
      · exact hna
      · intro hc
        exact ih h2 (List.mem_cons_of_mem _ hc)

lemma length_flatMap_sum {α β : Type _} (l : List α) (f : α → List β) :
    (l.flatMap f).length = (l.map (fun x => (f x).length)).sum := by
  induction l with
  | nil => rfl
  | cons x xs ih => simp [List.flatMap_cons, ih]

/-! ### Claim theorems -/

/-- Claim C1: for every candidate string, `standardizeUrl` returns the
candidate unchanged (as both standardized and display form) whenever it
starts with `http://` or `https://`; otherwise it takes the text before the
first `/` as the host, lower-cases the host's last dot-separated segment,
and returns `https://` + candidate with the original display if that
segment is in the fixed TLD allow-list, and nothing if it is not. -/
theorem standardizeUrl_contract (url : List Char) :
    ((List.isPrefixOf ("http://".data) url = true
        ∨ List.isPrefixOf ("https://".data) url = true) →
      standardizeUrl url = some (url, url))
    ∧ (¬ (List.isPrefixOf ("http://".data) url = true
        ∨ List.isPrefixOf ("https://".data) url = true) →
      (specTld url ∈ commonTLDs →
        standardizeUrl url = some (("https://".data) ++ url, url))
      ∧ (specTld url ∉ commonTLDs → standardizeUrl url = none)) := by
  constructor
  · exact standardizeUrl_scheme
  · intro hns
    simp only [not_or, Bool.not_eq_true] at hns
    have hcond : (List.isPrefixOf ("http://".data) url
        || List.isPrefixOf ("https://".data) url) = false := by
      simp [hns.1, hns.2]
    constructor
    · intro htld
      have htld' : List.map Char.toLower
          ((splitOnChar '.' ((splitOnChar '/' url).head?.getD [])).getLast?.getD [])
          ∈ commonTLDs := by
        simpa [specTld, specHost] using htld
      simp [standardizeUrl, hcond, htld']
    · intro htld
      have htld' : List.map Char.toLower
          ((splitOnChar '.' ((splitOnChar '/' url).head?.getD [])).getLast?.getD [])
          ∉ commonTLDs := by
        simpa [specTld, specHost] using htld
      simp [standardizeUrl, hcond, htld']

/-- Witness for the C1 contract at the bare domain `example.com`. -/
theorem standardizeUrl_contract_witness :
    standardizeUrl ("example.com".data)
      = some (("https://".data) ++ ("example.com".data), ("example.com".data)) :=
  ((standardizeUrl_contract ("example.com".data)).2 (by decide)).1 (by decide)

/-- Claim C3: with the duplicate filter disabled, `filterLinks` returns both
sequences unchanged; with it enabled, it walks header records then body
records with one shared seen set of lower-cased URLs, keeping a record
exactly when its lower-cased canonical URL is unseen (first occurrence wins
within each section), so header records are favored over body records for
the same URL and each output preserves the original relative order of its
section. -/
theorem filterLinks_contract (fm nt : List LinkInfo) :
    filterLinks false fm nt = (fm, nt)
    ∧ filterLinks true fm nt = (dedupeKeep [] fm, dedupeKeep (fm.map lowUrl) nt)
    ∧ (filterLinks true fm nt).1.Sublist fm
    ∧ (filterLinks true fm nt).2.Sublist nt
    ∧ ∀ r ∈ (filterLinks true fm nt).2, lowUrl r ∉ fm.map lowUrl := by
  have h1 : filterLinks true fm nt
      = ((filterPass [] fm).2, (filterPass (filterPass [] fm).1 nt).2) := rfl
  have h2 : (filterPass [] fm).2 = dedupeKeep [] fm := filterPass_snd _ _
  have h3 : (filterPass (filterPass [] fm).1 nt).2 = dedupeKeep (fm.map lowUrl) nt := by
    rw [filterPass_snd]
    refine dedupeKeep_congr ?_ nt
    intro x
    rw [mem_filterPass_fst]
    simp
  refine ⟨rfl, ?_, ?_, ?_, ?_⟩
  · rw [h1, h2, h3]
  · rw [h1]
    simp only [h2]
    exact dedupeKeep_sublist [] fm
  · rw [h1]
    simp only [h3]
    exact dedupeKeep_sublist _ nt
  · intro r hr
    rw [h1] at hr
    simp only [h3] at hr
    exact not_mem_seen_of_mem_dedupeKeep hr

/-- Witness for C3: a body record with a fresh URL survives, and its
lower-cased URL does not occur among the header URLs. -/
theorem filterLinks_contract_witness :
    lowUrl (⟨("https://b.com".data), ("b.com".data), [],
        ⟨⟨0, 0⟩, ⟨0, 5⟩⟩, false, none⟩ : LinkInfo)
      ∉ ([(⟨("https://a.com".data), ("a.com".data), [],
          ⟨⟨0, 0⟩, ⟨0, 5⟩⟩, true, none⟩ : LinkInfo)]).map lowUrl :=
  (filterLinks_contract
      [⟨("https://a.com".data), ("a.com".data), [], ⟨⟨0, 0⟩, ⟨0, 5⟩⟩, true, none⟩]
      [⟨("https://b.com".data), ("b.com".data), [], ⟨⟨0, 0⟩, ⟨0, 5⟩⟩, false, none⟩]).2.2.2.2
    ⟨("https://b.com".data), ("b.com".data), [], ⟨⟨0, 0⟩, ⟨0, 5⟩⟩, false, none⟩
    (by decide)

/-- Claim C8: the full extraction (frontmatter pass followed by body pass)
is a pure function of the document text: equal inputs give equal outputs,
and running it twice on unchanged text yields identical result lists. -/
theorem extract_deterministic (t u : List Char) (h : t = u) :
    extractAll t = extractAll u ∧ extractAll t = extractAll t := by
  subst h
  exact ⟨rfl, rfl⟩

/-- Witness for C8 at a concrete document. -/
theorem extract_deterministic_witness :
    extractAll ("a.com".data) = extractAll ("a.com".data) :=
  (extract_deterministic ("a.com".data) ("a.com".data) rfl).1

/-- Claim C10: every record's span lies on a single line and its width is
the length of the display text: the end column is the start column plus the
length of the raw matched substring (which is the display text). -/
theorem span_single_line_width (t : List Char) :
    ∀ rec ∈ extractFrontmatterLinks t ++ extractNoteLinks t,
      rec.position.fromPos.line = rec.position.toPos.line
      ∧ rec.position.toPos.ch
          = rec.position.fromPos.ch + (rec.displayUrl.length : Int) := by
  intro rec hmem
  rcases List.mem_append.mp hmem with h | h
  · obtain ⟨fm, idx, line, kv, pos, matched, u, hfm, hl, hpm, hm, hu, hrec⟩ :=
      mem_extractFrontmatterLinks h
    subst hrec
    exact ⟨rfl, rfl⟩
  · obtain ⟨idx, line, pos, matched, u, hl, hm, hu, hrec⟩ := mem_extractNoteLinks h
    subst hrec
    exact ⟨rfl, rfl⟩

/-- Witness for C10 at the one record extracted from `a.com`. -/
theorem span_single_line_width_witness :
    (⟨("https://a.com".data), ("a.com".data), [], ⟨⟨0, 0⟩, ⟨0, 5⟩⟩,
        false, none⟩ : LinkInfo).position.fromPos.line
      = (⟨("https://a.com".data), ("a.com".data), [], ⟨⟨0, 0⟩, ⟨0, 5⟩⟩,
        false, none⟩ : LinkInfo).position.toPos.line
    ∧ (⟨("https://a.com".data), ("a.com".data), [], ⟨⟨0, 0⟩, ⟨0, 5⟩⟩,
        false, none⟩ : LinkInfo).position.toPos.ch
      = (⟨("https://a.com".data), ("a.com".data), [], ⟨⟨0, 0⟩, ⟨0, 5⟩⟩,
        false, none⟩ : LinkInfo).position.fromPos.ch
        + ((⟨("https://a.com".data), ("a.com".data), [], ⟨⟨0, 0⟩, ⟨0, 5⟩⟩,
        false, none⟩ : LinkInfo).displayUrl.length : Int) :=
  span_single_line_width ("a.com".data) _ (by decide)

/-- Claim C9: both extractors and the duplicate filter are total functions
producing well-formed (possibly empty) lists on every input, including the
empty document; the filter never lengthens a section, and the number of
records an extractor produces is bounded by the number of raw URL
candidates (rejected candidates and malformed `key: value` lines only
reduce the record count). -/
theorem extract_total :
    extractFrontmatterLinks [] = [] ∧ extractNoteLinks [] = []
    ∧ (∀ (e : Bool) (fm nt : List LinkInfo),
        (filterLinks e fm nt).1.length ≤ fm.length
        ∧ (filterLinks e fm nt).2.length ≤ nt.length)
    ∧ (∀ t : List Char,
        (extractFrontmatterLinks t).length ≤ fmCandidateCount t
        ∧ (extractNoteLinks t).length ≤ noteCandidateCount t) := by
  refine ⟨by decide, by decide, ?_, ?_⟩
  · intro e fm nt
    cases e with
    | false => exact ⟨Nat.le_refl _, Nat.le_refl _⟩
    | true =>
      have h1 : filterLinks true fm nt
          = ((filterPass [] fm).2, (filterPass (filterPass [] fm).1 nt).2) := rfl
      rw [h1]
      constructor
      · rw [filterPass_snd]
        exact (dedupeKeep_sublist [] fm).length_le
      · rw [filterPass_snd]
        exact (dedupeKeep_sublist _ nt).length_le
  · intro t
    constructor
    · unfold extractFrontmatterLinks fmCandidateCount
      cases fmMatchGroup t with
      | none => simp
      | some fm =>
        rw [length_flatMap_sum]
        refine List.sum_le_sum ?_
        intro p hp
        cases propertyMatch p.2 with
        | none => simp
        | some kv => exact List.length_filterMap_le _ _
    · unfold extractNoteLinks noteCandidateCount
      rw [length_flatMap_sum]
      refine List.sum_le_sum ?_
      intro p hp
      exact List.length_filterMap_le _ _

/-- Counterexample to claim C6 as stated: the document `example.com` has a
single body record whose tag list is empty although it does not come from
the frontmatter, so tag-emptiness does not imply header origin. -/
theorem tags_empty_iff_counterexample : ¬ claimC6Holds ("example.com".data) := by
  unfold claimC6Holds
  decide

/-- Claim C6 (amended): every frontmatter record has an empty tag list, and
every record with a nonempty tag list is a body record; but the converse of
the original claim fails, because a body record whose source line carries no
hashtag also has an empty tag list. -/
theorem tags_empty_of_frontmatter (t : List Char) :
    (∀ rec ∈ extractFrontmatterLinks t, rec.tags = [] ∧ rec.isFromFrontmatter = true)
    ∧ (∀ rec ∈ extractNoteLinks t, rec.isFromFrontmatter = false) := by
  constructor
  · intro rec h
    obtain ⟨fm, idx, line, kv, pos, matched, u, hfm, hl, hpm, hm, hu, hrec⟩ :=
      mem_extractFrontmatterLinks h
    subst hrec
    exact ⟨rfl, rfl⟩
  · intro rec h
    obtain ⟨idx, line, pos, matched, u, hl, hm, hu, hrec⟩ := mem_extractNoteLinks h
    subst hrec
    rfl

/-- Witness for the amended C6 at a concrete frontmatter record. -/
theorem tags_empty_of_frontmatter_witness :
    (⟨("https://a.com".data), ("a.com".data), [],
        ⟨⟨1, 6⟩, ⟨1, 11⟩⟩, true, some ("site".data)⟩ : LinkInfo).tags = []
    ∧ (⟨("https://a.com".data), ("a.com".data), [],
        ⟨⟨1, 6⟩, ⟨1, 11⟩⟩, true, some ("site".data)⟩ : LinkInfo).isFromFrontmatter
      = true :=
  (tags_empty_of_frontmatter ("---\nsite: a.com\n---\nx".data)).1 _ (by decide)

/-- Claim C7: every body record's tag list equals the ordered list of all
hashtag tokens (`#` followed by one or more word/hyphen characters, leading
`#` removed) of its source line, so all URL records produced from the same
line carry the identical tag list. -/
theorem tags_line_scoped (t : List Char) :
    ∀ rec ∈ extractNoteLinks t,
      rec.tags = lineTags ((splitOnNl t).getD rec.position.fromPos.line [])
      ∧ ∀ rec' ∈ extractNoteLinks t,
          rec'.position.fromPos.line = rec.position.fromPos.line →
            rec'.tags = rec.tags := by
  intro rec h
  obtain ⟨idx, line, pos, matched, u, hl, hm, hu, hrec⟩ := mem_extractNoteLinks h
  have hline := noteContentLines_get hl
  constructor
  · subst hrec
    dsimp only
    rw [List.getD_eq_getElem?_getD, hline]
    rfl
  · intro rec' h' heq
    obtain ⟨idx', line', pos', matched', u', hl', hm', hu', hrec'⟩ :=
      mem_extractNoteLinks h'
    have hline' := noteContentLines_get hl'
    subst hrec hrec'
    dsimp only at heq ⊢
    rw [heq] at hline'
    rw [hline'] at hline
    have hll : line' = line := by
      injection hline
    rw [hll]

/-- Witness for C7 at the first of two records sharing one line. -/
theorem tags_line_scoped_witness :
    (⟨("https://a.com".data), ("a.com".data), [("t1".data), ("t2".data)],
        ⟨⟨0, 0⟩, ⟨0, 5⟩⟩, false, none⟩ : LinkInfo).tags
      = lineTags ((splitOnNl ("a.com #t1 b.com #t2".data)).getD
          (⟨("https://a.com".data), ("a.com".data), [("t1".data), ("t2".data)],
            ⟨⟨0, 0⟩, ⟨0, 5⟩⟩, false, none⟩ : LinkInfo).position.fromPos.line []) :=
  (tags_line_scoped ("a.com #t1 b.com #t2".data) _ (by decide)).1

/-- Counterexample to claim C5 as stated: the body line `http://localhost`
contains `http://` followed by non-whitespace characters, yet extraction
produces no record at all, because the body URL regex requires a dotted
domain after the optional scheme. -/
theorem body_scheme_counterexample : ¬ claimC5Holds ("http://localhost".data) := by
  unfold claimC5Holds
  decide

/-- Claim C5 (amended): in the body region candidates are the matches of a
single optional-scheme pattern (optional `http(s)://`, optional `www.`, a
dotted domain, an optional `/`-path); every raw match that itself starts
with `http://` or `https://` is accepted by the normalizer unchanged and
yields a record, but a schemed substring with no dotted domain after the
scheme produces no candidate and no record. -/
theorem body_scheme_matching_amended (t : List Char) (idx pos : Nat)
    (line matched : List Char)
    (hl : (idx, line) ∈ enumFrom 0 (noteContentLines t))
    (hm : (pos, matched) ∈ findAll noteUrlLen line)
    (hs : List.isPrefixOf ("http://".data) matched = true
        ∨ List.isPrefixOf ("https://".data) matched = true) :
    (⟨matched, matched, lineTags line,
      ⟨⟨idx + contentStartLine t, (pos : Int)⟩,
       ⟨idx + contentStartLine t, (pos : Int) + matched.length⟩⟩,
      false, none⟩ : LinkInfo) ∈ extractNoteLinks t := by
  unfold extractNoteLinks
  rw [List.mem_flatMap]
  refine ⟨(idx, line), hl, ?_⟩
  rw [List.mem_filterMap]
  refine ⟨(pos, matched), hm, ?_⟩
  dsimp only
  rw [standardizeUrl_scheme hs]
  rfl

/-- Witness for the amended C5 at the schemed match `https://ex.com`. -/
theorem body_scheme_matching_amended_witness :
    (⟨("https://ex.com".data), ("https://ex.com".data),
      lineTags ("https://ex.com".data),
      ⟨⟨0 + contentStartLine ("https://ex.com".data), ((0 : Nat) : Int)⟩,
       ⟨0 + contentStartLine ("https://ex.com".data),
        ((0 : Nat) : Int) + ("https://ex.com".data).length⟩⟩,
      false, none⟩ : LinkInfo) ∈ extractNoteLinks ("https://ex.com".data) :=
  body_scheme_matching_amended ("https://ex.com".data) 0 0
    ("https://ex.com".data) ("https://ex.com".data)
    (by decide) (by decide) (Or.inr (by decide))

/-- Counterexample to claim C4 as stated: in the document
`---\nsite: example.com\n----` no line after the first is exactly `---`,
yet the frontmatter extractor recognizes a header (the closing delimiter of
its regex only has to start a line with `---`, and `----` qualifies), so
the header record list is not empty. -/
theorem frontmatter_recognition_counterexample :
    ¬ claimC4Holds ("---\nsite: example.com\n----".data) := by
  unfold claimC4Holds specHeaderShape
  decide

/-- Claim C4 (amended): the frontmatter extractor recognizes a header iff
the document decomposes as `---` + newline + header + newline + `---` +
rest — i.e. the opening line must be exactly `---` but the closing line
need only begin with `---`, and the closing newline+`---` must occur after
the opening newline (so an immediately following `---` line closing an
empty header is not recognized); whenever the header regex does not match,
the header record list is empty and the entire unchanged document is
scanned as body at line offset 0 (the body extractor's stricter regex also
fails to match then). -/
theorem frontmatter_recognition_amended (t : List Char) :
    ((fmMatchGroup t).isSome
      ↔ ∃ g post, t = ("---\n".data) ++ g ++ ("\n---".data) ++ post)
    ∧ (fmMatchGroup t = none →
        extractFrontmatterLinks t = [] ∧ contentStartLine t = 0) := by
  constructor
  · constructor
    · intro h
      cases hfm : fmMatchGroup t with
      | none => rw [hfm] at h; simp at h
      | some fm =>
        obtain ⟨post, ht⟩ := fmMatchGroup_decomp hfm
        exact ⟨fm, post, ht⟩
    · rintro ⟨g, post, rfl⟩
      exact fmMatchGroup_some_of_decomp g post
  · intro h
    refine ⟨?_, contentStartLine_eq_zero h⟩
    unfold extractFrontmatterLinks
    rw [h]

/-- Witness for the amended C4 at the header-free document `x`. -/
theorem frontmatter_recognition_amended_witness :
    extractFrontmatterLinks ("x".data) = [] ∧ contentStartLine ("x".data) = 0 :=
  (frontmatter_recognition_amended ("x".data)).2 (by decide)

lemma drop_length_take (X : List Char) (len : Nat) :
    X.drop ((X.take len).length) = X.drop len := by
  rw [List.length_take]
  by_cases h : len ≤ X.length
  · rw [Nat.min_eq_left h]
  · rw [Nat.min_eq_right (by omega)]
    rw [List.drop_length, List.drop_eq_nil_of_le (by omega)]

lemma map_flatMap_eq {α β γ : Type _} (l : List α) (f : α → List β) (h : β → γ) :
    (l.flatMap f).map h = l.flatMap (fun a => (f a).map h) := by
  induction l with
  | nil => rfl
  | cons x xs ih => simp [List.flatMap_cons, ih]

lemma map_filterMap_map {α β γ δ : Type _} (l : List α) (g : α → Option β)
    (f : α → β → γ) (h : γ → δ) :
    (l.filterMap (fun a => (g a).map (f a))).map h
      = l.filterMap (fun a => (g a).map (fun b => h (f a b))) := by
  induction l with
  | nil => rfl
  | cons x xs ih =>
    cases hg : g x with
    | none => simp [List.filterMap_cons, hg, ih]
    | some b => simp [List.filterMap_cons, hg, ih]

/-- Counterexample to claim C2 as stated: in the document
`---\nsite: a.com a.com\n---\nx` the property value contains the same URL
twice; the extractor stores `line.indexOf(matchedUrl)` instead of the raw
match position, so both records carry start column 6 while the raw match
start indices are 6 and 12. -/
theorem span_column_counterexample :
    ¬ claimC2Holds ("---\nsite: a.com a.com\n---\nx".data) := by
  unfold claimC2Holds
  decide

/-- Claim C2 (amended): the substring of the original document covered by
every record's span equals its display text exactly; for body records the
start column is exactly the raw match start index within the source line
(the body records' start columns, in emission order, are the raw match
start indices `noteRawStarts`), but for frontmatter records it is the index
of the *first* occurrence of the matched text within the line (which
coincides with the raw match start only when the matched text occurs
once). -/
theorem span_covers_display_amended (t : List Char) :
    (∀ rec ∈ extractFrontmatterLinks t,
      ∃ p : Nat,
        firstOccur rec.displayUrl ((splitOnNl t).getD rec.position.fromPos.line [])
          = some p
        ∧ rec.position.fromPos.ch = (p : Int)
        ∧ (((splitOnNl t).getD rec.position.fromPos.line []).drop p).take
            rec.displayUrl.length = rec.displayUrl)
    ∧ (∀ rec ∈ extractNoteLinks t,
      ∃ p : Nat,
        rec.position.fromPos.ch = (p : Int)
        ∧ (((splitOnNl t).getD rec.position.fromPos.line []).drop p).take
            rec.displayUrl.length = rec.displayUrl)
    ∧ (extractNoteLinks t).map (fun r => r.position.fromPos.ch) = noteRawStarts t := by
  refine ⟨?_, ?_, ?_⟩
  · intro rec h
    obtain ⟨fm, idx, line, kv, pos, matched, u, hfm, hl, hpm, hm, hu, hrec⟩ :=
      mem_extractFrontmatterLinks h
    obtain ⟨-, hgl⟩ := mem_enumFrom hl
    have hgl' : (splitOnNl fm)[idx]? = some line := by simpa using hgl
    have hdoc := fmDoc_line hfm hgl'
    obtain ⟨len, hml, hmatched⟩ := mem_findAll hm
    obtain ⟨pre, hline⟩ := propertyMatch_decomp hpm
    have h2 : matched ++ (kv.2.drop pos).drop matched.length = kv.2.drop pos := by
      rw [hmatched, drop_length_take]
      exact List.take_append_drop len (kv.2.drop pos)
    have hab : line = (pre ++ kv.2.take pos) ++ matched
        ++ (kv.2.drop pos).drop matched.length := by
      have hassoc : (pre ++ kv.2.take pos) ++ matched
          ++ (kv.2.drop pos).drop matched.length
          = pre ++ (kv.2.take pos ++ (matched ++ (kv.2.drop pos).drop matched.length)) := by
        simp [List.append_assoc]
      rw [hassoc, h2, List.take_append_drop]
      exact hline
    have hsome := firstOccur_complete matched
      (pre ++ kv.2.take pos) ((kv.2.drop pos).drop matched.length)
    rw [← hab] at hsome
    cases hq : firstOccur matched line with
    | none => rw [hq] at hsome; simp at hsome
    | some q =>
      subst hrec
      dsimp only
      refine ⟨q, ?_, ?_, ?_⟩
      · rw [List.getD_eq_getElem?_getD, hdoc]
        exact hq
      · unfold jsIndexOf
        rw [hq]
      · rw [List.getD_eq_getElem?_getD, hdoc]
        exact take_of_isPrefixOf (firstOccur_sound hq)
  · intro rec h
    obtain ⟨idx, line, pos, matched, u, hl, hm, hu, hrec⟩ := mem_extractNoteLinks h
    obtain ⟨len, hml, hmatched⟩ := mem_findAll hm
    subst hrec
    dsimp only
    refine ⟨pos, rfl, ?_⟩
    rw [List.getD_eq_getElem?_getD, noteContentLines_get hl]
    rw [hmatched]
    exact take_take_self _ _
  · unfold extractNoteLinks noteRawStarts
    rw [map_flatMap_eq]
    congr 1
    funext p
    rw [map_filterMap_map]

/-- Witness for the amended C2 at a concrete frontmatter record, together
with the raw-start equality for the body records of the same document. -/
theorem span_covers_display_amended_witness :
    (∃ p : Nat,
      firstOccur
          (⟨("https://a.com".data), ("a.com".data), [], ⟨⟨1, 6⟩, ⟨1, 11⟩⟩,
            true, some ("site".data)⟩ : LinkInfo).displayUrl
          ((splitOnNl ("---\nsite: a.com\n---\nb.com".data)).getD
            (⟨("https://a.com".data), ("a.com".data), [], ⟨⟨1, 6⟩, ⟨1, 11⟩⟩,
              true, some ("site".data)⟩ : LinkInfo).position.fromPos.line [])
        = some p
      ∧ (⟨("https://a.com".data), ("a.com".data), [], ⟨⟨1, 6⟩, ⟨1, 11⟩⟩,
          true, some ("site".data)⟩ : LinkInfo).position.fromPos.ch = (p : Int)
      ∧ (((splitOnNl ("---\nsite: a.com\n---\nb.com".data)).getD
            (⟨("https://a.com".data), ("a.com".data), [], ⟨⟨1, 6⟩, ⟨1, 11⟩⟩,
              true, some ("site".data)⟩ : LinkInfo).position.fromPos.line []).drop
            p).take
          (⟨("https://a.com".data), ("a.com".data), [], ⟨⟨1, 6⟩, ⟨1, 11⟩⟩,
            true, some ("site".data)⟩ : LinkInfo).displayUrl.length
        = (⟨("https://a.com".data), ("a.com".data), [], ⟨⟨1, 6⟩, ⟨1, 11⟩⟩,
          true, some ("site".data)⟩ : LinkInfo).displayUrl)
    ∧ (extractNoteLinks ("---\nsite: a.com\n---\nb.com".data)).map
        (fun r => r.position.fromPos.ch)
      = noteRawStarts ("---\nsite: a.com\n---\nb.com".data) :=
  ⟨(span_covers_display_amended ("---\nsite: a.com\n---\nb.com".data)).1 _ (by decide),
   (span_covers_display_amended ("---\nsite: a.com\n---\nb.com".data)).2.2⟩
